import Mathlib

/-!
Verification of the reconciliation and batching core of the seller-apis
repository (src/seller.py and src/market.py) against its specification.

The inventory rows, stock records and price records are embedded as Lean
structures; the Python functions `create_stocks`, `create_prices`,
`price_conversion` and `divide` are embedded as pure Lean functions.
Python's in-place mutation of the `offer_ids` list inside `create_stocks`
(`offer_ids.remove(...)`) is made explicit by returning the residual list
alongside the records.  Failures that Python signals by raising
`ValueError` (a non-numeric string passed to `int()`, a zero step passed
to `range()`) are embedded with `Except`.
-/

/-- Error kinds raised by the reconciliation engine and the batch
partitioner.  Both are `ValueError` in Python; they are distinguished here
following the spec's taxonomy: `parseError` for an unrecognized
quantity/price descriptor (raised by `int()`), `invalidArgument` for a
non-positive batch size (raised by `range()` on a zero step). -/
inductive PyErr where
  | parseError
  | invalidArgument
deriving DecidableEq, Repr

/-- Characters stripped by Python's `int(str)` conversion at both ends of
the string (the common ASCII whitespace). -/
def isPySpace (c : Char) : Bool :=
  c == ' ' || c == '\t' || c == '\n' || c == '\r'

/-- Digit-run grammar of Python's integer literals as accepted by
`int(str)`: one or more decimal digits, with single underscores allowed
only between digits.  Returns the accumulated value, or `none` when the
remaining characters do not form such a run.  `prevDigit` records whether
the previous character was a digit (so an underscore is legal here and the
run may legally end here). -/
def pyIntDigits : List Char → Nat → Bool → Option Nat
  | [], acc, prevDigit => if prevDigit then some acc else none
  | c :: cs, acc, prevDigit =>
    if c.isDigit then pyIntDigits cs (acc * 10 + (c.toNat - 48)) true
    else if c == '_' && prevDigit then pyIntDigits cs acc false
    else none

/-- Embedding of Python's `int(s)` for a string argument in base 10:
strip whitespace at both ends, accept one optional sign, then a digit run
(underscores between digits allowed).  `none` embeds the `ValueError`
Python raises on any other input (e.g. `int("")`, `int("abc")`,
`int(">10")`). -/
def pyInt (s : String) : Option Int :=
  let cs := ((s.data.dropWhile isPySpace).reverse.dropWhile isPySpace).reverse
  match cs with
  | '+' :: rest => (pyIntDigits rest 0 false).map (fun n => (n : Int))
  | '-' :: rest => (pyIntDigits rest 0 false).map (fun n => -(n : Int))
  | _ => (pyIntDigits cs 0 false).map (fun n => (n : Int))

/-- One row of the Casio inventory spreadsheet (`watch_remnants` element):
the product code (`"Код"`), the quantity descriptor (`"Количество"`) and
the price descriptor (`"Цена"`), all taken after Python's `str()`
conversion applied by the source. -/
structure InventoryRow where
  kod : String
  kolichestvo : String
  tsena : String
deriving DecidableEq, Repr

/-- A stock update record built by `seller.create_stocks`:
`{"offer_id": ..., "stock": ...}`. -/
structure SellerStock where
  offer_id : String
  stock : Int
deriving DecidableEq, Repr

/-- Quantity normalization inlined in both `create_stocks` functions
(seller.py lines 212-218, market.py lines 184-190): `">10"` becomes 100,
`"1"` becomes 0, anything else goes through `int()`, whose `ValueError`
is the `parseError` case. -/
def normalizeCount (count : String) : Except PyErr Int :=
  if count = ">10" then .ok 100
  else if count = "1" then .ok 0
  else
    match pyInt count with
    | some k => .ok k
    | none => .error .parseError

/-- First loop of `seller.create_stocks` (lines 210-220): walk the
inventory rows; a row whose code is in `offer_ids` appends a record with
the normalized count and removes the code's first occurrence from
`offer_ids` (Python's `list.remove`).  Returns the matched records in row
order together with the residual `offer_ids` list. -/
def create_stocksLoop :
    List InventoryRow → List String → Except PyErr (List SellerStock × List String)
  | [], offer_ids => .ok ([], offer_ids)
  | watch :: rest, offer_ids =>
    if watch.kod ∈ offer_ids then
      match normalizeCount watch.kolichestvo with
      | .error e => .error e
      | .ok stock =>
        match create_stocksLoop rest (offer_ids.erase watch.kod) with
        | .error e => .error e
        | .ok (recs, remaining) => .ok (⟨watch.kod, stock⟩ :: recs, remaining)
    else create_stocksLoop rest offer_ids

/-- `seller.create_stocks` (lines 190-224) with the mutation of the
caller's `offer_ids` list made explicit: the result pairs the returned
`stocks` list (matched records first, then a zero-stock record for every
identifier still in `offer_ids`) with the final contents of the caller's
`offer_ids` list after the call. -/
def create_stocksFull (watch_remnants : List InventoryRow) (offer_ids : List String) :
    Except PyErr (List SellerStock × List String) :=
  match create_stocksLoop watch_remnants offer_ids with
  | .error e => .error e
  | .ok (recs, remaining) =>
    .ok (recs ++ remaining.map (fun offer_id => ⟨offer_id, 0⟩), remaining)

/-- The `stocks` list returned by `seller.create_stocks`. -/
def create_stocks (watch_remnants : List InventoryRow) (offer_ids : List String) :
    Except PyErr (List SellerStock) :=
  (create_stocksFull watch_remnants offer_ids).map Prod.fst

/-- Splitting a character list at every occurrence of `sep`, embedding
Python's `str.split(sep)` (so `"".split(".") = [""]` and separators at the
ends contribute empty pieces). -/
def pySplit (sep : Char) : List Char → List (List Char)
  | [] => [[]]
  | c :: cs =>
    let r := pySplit sep cs
    if c = sep then [] :: r
    else (c :: r.headD []) :: r.tail

/-- `seller.price_conversion` (lines 259-276):
`re.sub("[^0-9]", "", price.split(".")[0])` — take the part of the string
before the first `'.'` and keep only the ASCII decimal digits. -/
def price_conversion (price : String) : String :=
  String.mk (((pySplit '.' price.data).headD []).filter Char.isDigit)

/-- A price update record built by `seller.create_prices` (lines
248-254). -/
structure SellerPrice where
  auto_action_enabled : String
  currency_code : String
  offer_id : String
  old_price : String
  price : String
deriving DecidableEq, Repr

/-- The record literal of `seller.create_prices` lines 248-254. -/
def mkSellerPrice (watch : InventoryRow) : SellerPrice :=
  ⟨"UNKNOWN", "RUB", watch.kod, "0", price_conversion watch.tsena⟩

/-- `seller.create_prices` (lines 227-256): one record per inventory row
whose code is in `offer_ids`; `offer_ids` is read, never mutated. -/
def create_prices : List InventoryRow → List String → List SellerPrice
  | [], _ => []
  | watch :: rest, offer_ids =>
    if watch.kod ∈ offer_ids then
      mkSellerPrice watch :: create_prices rest offer_ids
    else create_prices rest offer_ids

/-- Decidable equality on `Except`, needed to settle concrete runs of the
embedded functions by `decide`. -/
instance {ε α : Type} [DecidableEq ε] [DecidableEq α] : DecidableEq (Except ε α) := fun
  | .error e₁, .error e₂ =>
    if h : e₁ = e₂ then .isTrue (h ▸ rfl)
    else .isFalse (fun hh => h (Except.error.inj hh))
  | .error _, .ok _ => .isFalse (fun hh => Except.noConfusion hh)
  | .ok _, .error _ => .isFalse (fun hh => Except.noConfusion hh)
  | .ok a, .ok b =>
    if h : a = b then .isTrue (h ▸ rfl)
    else .isFalse (fun hh => h (Except.ok.inj hh))

/-- One element of the `items` list of a Yandex Market stock record
(market.py lines 195-201). -/
structure MarketStockItem where
  count : Int
  type : String
  updatedAt : String
deriving DecidableEq, Repr

/-- A stock update record built by `market.create_stocks` (lines
191-203). -/
structure MarketStock where
  sku : String
  warehouseId : String
  items : List MarketStockItem
deriving DecidableEq, Repr

/-- First loop of `market.create_stocks` (lines 182-204): same matching
and quantity normalization as the seller version, but each record also
carries the warehouse id and the timestamp `date` computed from
`datetime.datetime.utcnow()` at the start of the call (here an explicit
argument). -/
def market_create_stocksLoop (warehouse_id date : String) :
    List InventoryRow → List String → Except PyErr (List MarketStock × List String)
  | [], offer_ids => .ok ([], offer_ids)
  | watch :: rest, offer_ids =>
    if watch.kod ∈ offer_ids then
      match normalizeCount watch.kolichestvo with
      | .error e => .error e
      | .ok stock =>
        match market_create_stocksLoop warehouse_id date rest (offer_ids.erase watch.kod) with
        | .error e => .error e
        | .ok (recs, remaining) =>
          .ok (⟨watch.kod, warehouse_id, [⟨stock, "FIT", date⟩]⟩ :: recs, remaining)
    else market_create_stocksLoop warehouse_id date rest offer_ids

/-- `market.create_stocks` (lines 160-220): matched records first, then a
zero-count record for every identifier still in `offer_ids`.  The
wall-clock reading `datetime.datetime.utcnow()` taken at line 181 is
passed in as the explicit `date` argument. -/
def market_create_stocks (watch_remnants : List InventoryRow) (offer_ids : List String)
    (warehouse_id date : String) : Except PyErr (List MarketStock) :=
  match market_create_stocksLoop warehouse_id date watch_remnants offer_ids with
  | .error e => .error e
  | .ok (recs, remaining) =>
    .ok (recs ++ remaining.map (fun offer_id => ⟨offer_id, warehouse_id, [⟨0, "FIT", date⟩]⟩))

/-- Blanking of the `updatedAt` timestamps of a market stock record, used
to compare two runs of `market_create_stocks` taken at different times. -/
def eraseUpdatedAt (r : MarketStock) : MarketStock :=
  { r with items := r.items.map (fun it => { it with updatedAt := "" }) }

/-- A price update record built by `market.create_prices` (lines
244-255). -/
structure MarketPrice where
  id : String
  value : Int
  currencyId : String
deriving DecidableEq, Repr

/-- `market.create_prices` (lines 223-257): one record per inventory row
whose code is in `offer_ids`; the price goes through
`int(price_conversion(...))`, whose `ValueError` on a digit-free
descriptor is the `parseError` case. -/
def market_create_prices : List InventoryRow → List String → Except PyErr (List MarketPrice)
  | [], _ => .ok []
  | watch :: rest, offer_ids =>
    if watch.kod ∈ offer_ids then
      match pyInt (price_conversion watch.tsena) with
      | none => .error .parseError
      | some v =>
        match market_create_prices rest offer_ids with
        | .error e => .error e
        | .ok prices => .ok (⟨watch.kod, v, "RUR"⟩ :: prices)
    else market_create_prices rest offer_ids

/-- Embedding of Python's builtin `range(start, stop, step)` for a nonzero
step: element `i` is `start + step * i`, and the number of elements is the
ceiling of `(stop - start) / step`, clamped at zero (so the list is empty
when the step points away from `stop`).  The caller of `range` handles the
`ValueError` of a zero step itself. -/
def pyRange (start stop step : Int) : List Int :=
  if step = 0 then []
  else
    let len : Nat :=
      if 0 < step then (stop - start + step - 1).toNat / step.toNat
      else (start - stop + (-step) - 1).toNat / (-step).toNat
    (List.range len).map (fun (i : Nat) => start + step * (i : Int))

/-- Embedding of the Python slice `lst[i:j]` for nonnegative bounds (the
only ones `divide` produces): drop `i`, then take `j - i`, both clamped to
the list length. -/
def pySlice (lst : List α) (i j : Int) : List α :=
  (lst.drop i.toNat).take (j.toNat - i.toNat)

/-- `seller.divide` (lines 279-300), forced to a list as every caller does
with `list(divide(...))`: `for i in range(0, len(lst), n): yield
lst[i:i+n]`.  A zero `n` makes `range` raise `ValueError`
(`invalidArgument`); any other `n` yields the slices at the range's
indices. -/
def divide (lst : List α) (n : Int) : Except PyErr (List (List α)) :=
  if n = 0 then .error .invalidArgument
  else .ok ((pyRange 0 lst.length n).map (fun i => pySlice lst i (i + n)))

/-- Fixed-size chunking written the way the spec describes the partition
(head chunk of `m` elements, recurse on the rest), with explicit fuel to
make the recursion structural; `fuel ≥ lst.length` is always enough. -/
def chunksRec (m : Nat) : Nat → List α → List (List α)
  | 0, _ => []
  | _ + 1, [] => []
  | fuel + 1, lst => lst.take m :: chunksRec m fuel (lst.drop m)

/-- Modelled from the spec: the quantity normalization policy of §4.1 in
the spec's own words — `">10"` (the "more than ten" token) normalizes to
100, `"1"` to 0, anything else parses as an integer, `none` on parse
failure. -/
def specNormalizedQty (s : String) : Option Int :=
  if s = ">10" then some 100
  else if s = "1" then some 0
  else pyInt s

/-- Modelled from the spec: the price normalization policy of §4.1 in the
spec's own words — keep the portion before the first decimal point, then
remove every non-digit character. -/
def specPriceDigits (s : String) : String :=
  String.mk ((s.data.takeWhile (fun c => c != '.')).filter Char.isDigit)

/-- The only error `normalizeCount` can produce is `parseError`. -/
theorem normalizeCount_error (s : String) (e : PyErr)
    (h : normalizeCount s = .error e) : e = .parseError := by
  unfold normalizeCount at h
  split at h
  · exact Except.noConfusion h
  · split at h
    · exact Except.noConfusion h
    · split at h
      · exact Except.noConfusion h
      · exact (Except.error.inj h).symm

/-- A successful `normalizeCount` yields 100, 0, or the `int()` value of
the descriptor. -/
theorem normalizeCount_ok_cases (s : String) (q : Int)
    (h : normalizeCount s = .ok q) : q = 100 ∨ q = 0 ∨ pyInt s = some q := by
  unfold normalizeCount at h
  split at h
  · exact Or.inl (Except.ok.inj h).symm
  · split at h
    · exact Or.inr (Or.inl (Except.ok.inj h).symm)
    · split at h
      · rename_i k hk
        exact Or.inr (Or.inr (hk.trans (congrArg some (Except.ok.inj h))))
      · exact Except.noConfusion h

/-- The source's inlined quantity normalization agrees with the spec's
normalization policy. -/
theorem normalizeCount_eq_spec (s : String) (q : Int) :
    normalizeCount s = .ok q ↔ specNormalizedQty s = some q := by
  unfold normalizeCount specNormalizedQty
  split
  · simp
  · split
    · simp
    · cases hp : pyInt s <;> simp [hp]

/-- The identifiers of the matched records together with the residual
list are a permutation of the input identifier list: each match moves one
occurrence from the list into the records. -/
theorem create_stocksLoop_perm :
    ∀ (rows : List InventoryRow) (ids : List String) (recs : List SellerStock)
      (remaining : List String),
    create_stocksLoop rows ids = .ok (recs, remaining) →
    (recs.map SellerStock.offer_id ++ remaining).Perm ids := by
  intro rows
  induction rows with
  | nil =>
    intro ids recs remaining h
    simp only [create_stocksLoop, Except.ok.injEq, Prod.mk.injEq] at h
    obtain ⟨h1, h2⟩ := h
    subst h1; subst h2
    simp
  | cons watch rest ih =>
    intro ids recs remaining h
    rw [create_stocksLoop] at h
    split at h
    · rename_i hmem
      split at h
      · exact Except.noConfusion h
      · rename_i stock hnorm
        split at h
        · exact Except.noConfusion h
        · rename_i recs' remaining' hrec
          simp only [Except.ok.injEq, Prod.mk.injEq] at h
          obtain ⟨h1, h2⟩ := h
          subst h1; subst h2
          have hih := ih (ids.erase watch.kod) recs' remaining' hrec
          simpa using (hih.cons watch.kod).trans (List.perm_cons_erase hmem).symm
    · exact ih ids recs remaining h

/-- An identifier matched by no inventory row survives into the residual
list. -/
theorem create_stocksLoop_mem_remaining :
    ∀ (rows : List InventoryRow) (ids : List String) (recs : List SellerStock)
      (remaining : List String) (i : String),
    create_stocksLoop rows ids = .ok (recs, remaining) →
    i ∈ ids → (∀ w ∈ rows, w.kod ≠ i) → i ∈ remaining := by
  intro rows
  induction rows with
  | nil =>
    intro ids recs remaining i h hi _
    simp only [create_stocksLoop, Except.ok.injEq, Prod.mk.injEq] at h
    obtain ⟨_, h2⟩ := h
    subst h2
    exact hi
  | cons watch rest ih =>
    intro ids recs remaining i h hi hall
    rw [create_stocksLoop] at h
    split at h
    · split at h
      · exact Except.noConfusion h
      · rename_i stock hnorm
        split at h
        · exact Except.noConfusion h
        · rename_i recs' remaining' hrec
          simp only [Except.ok.injEq, Prod.mk.injEq] at h
          obtain ⟨_, h2⟩ := h
          subst h2
          have hne : i ≠ watch.kod := fun he => hall watch (List.mem_cons_self _ _) (he ▸ rfl)
          exact ih _ recs' remaining' i hrec
            ((List.mem_erase_of_ne hne).mpr hi)
            (fun w hw => hall w (List.mem_cons_of_mem _ hw))
    · exact ih ids recs remaining i h hi
        (fun w hw => hall w (List.mem_cons_of_mem _ hw))

/-- Every matched record comes from some inventory row: its identifier is
the row's code and its stock is the row's normalized count. -/
theorem create_stocksLoop_rec_source :
    ∀ (rows : List InventoryRow) (ids : List String) (recs : List SellerStock)
      (remaining : List String),
    create_stocksLoop rows ids = .ok (recs, remaining) →
    ∀ r ∈ recs, ∃ w, w ∈ rows ∧ w.kod = r.offer_id ∧
      normalizeCount w.kolichestvo = .ok r.stock := by
  intro rows
  induction rows with
  | nil =>
    intro ids recs remaining h r hr
    simp only [create_stocksLoop, Except.ok.injEq, Prod.mk.injEq] at h
    obtain ⟨h1, _⟩ := h
    subst h1
    exact absurd hr (List.not_mem_nil r)
  | cons watch rest ih =>
    intro ids recs remaining h r hr
    rw [create_stocksLoop] at h
    split at h
    · split at h
      · exact Except.noConfusion h
      · rename_i stock hnorm
        split at h
        · exact Except.noConfusion h
        · rename_i recs' remaining' hrec
          simp only [Except.ok.injEq, Prod.mk.injEq] at h
          obtain ⟨h1, _⟩ := h
          subst h1
          rcases List.mem_cons.mp hr with hr | hr
          · exact ⟨watch, List.mem_cons_self _ _, by rw [hr], by rw [hr]; exact hnorm⟩
          · obtain ⟨w, hw, hk, hn⟩ := ih _ recs' remaining' hrec r hr
            exact ⟨w, List.mem_cons_of_mem _ hw, hk, hn⟩
    · obtain ⟨w, hw, hk, hn⟩ := ih ids recs remaining h r hr
      exact ⟨w, List.mem_cons_of_mem _ hw, hk, hn⟩

/-- The only error the stock-reconciliation loop can produce is
`parseError`. -/
theorem create_stocksLoop_error :
    ∀ (rows : List InventoryRow) (ids : List String) (e : PyErr),
    create_stocksLoop rows ids = .error e → e = .parseError := by
  intro rows
  induction rows with
  | nil =>
    intro ids e h
    exact Except.noConfusion h
  | cons watch rest ih =>
    intro ids e h
    rw [create_stocksLoop] at h
    split at h
    · split at h
      · rename_i e' hnorm
        exact (Except.error.inj h) ▸ normalizeCount_error _ e' hnorm
      · rename_i stock hnorm
        split at h
        · rename_i e' hrec
          exact (Except.error.inj h) ▸ ih _ e' hrec
        · exact Except.noConfusion h
    · exact ih ids e h

/-- `create_prices` is exactly one record per inventory row whose code is
in the identifier list, in row order. -/
theorem create_prices_eq_filter_map :
    ∀ (rows : List InventoryRow) (ids : List String),
    create_prices rows ids =
      (rows.filter (fun w => decide (w.kod ∈ ids))).map mkSellerPrice := by
  intro rows
  induction rows with
  | nil => intro ids; rfl
  | cons watch rest ih =>
    intro ids
    rw [create_prices]
    by_cases hmem : watch.kod ∈ ids
    · simp [hmem, List.filter_cons, ih]
    · simp [hmem, List.filter_cons, ih]

/-- Every price record's identifier is a member of the identifier list. -/
theorem create_prices_mem_ids :
    ∀ (rows : List InventoryRow) (ids : List String) (p : SellerPrice),
    p ∈ create_prices rows ids → p.offer_id ∈ ids := by
  intro rows
  induction rows with
  | nil => intro ids p hp; exact absurd hp (List.not_mem_nil p)
  | cons watch rest ih =>
    intro ids p hp
    rw [create_prices] at hp
    split at hp
    · rename_i hmem
      rcases List.mem_cons.mp hp with hp | hp
      · rw [hp]; exact hmem
      · exact ih ids p hp
    · exact ih ids p hp

/-- The only error `market_create_prices` can produce is `parseError`. -/
theorem market_create_prices_error :
    ∀ (rows : List InventoryRow) (ids : List String) (e : PyErr),
    market_create_prices rows ids = .error e → e = .parseError := by
  intro rows
  induction rows with
  | nil => intro ids e h; exact Except.noConfusion h
  | cons watch rest ih =>
    intro ids e h
    rw [market_create_prices] at h
    split at h
    · split at h
      · exact (Except.error.inj h).symm
      · rename_i v hv
        split at h
        · rename_i e' hrec
          exact (Except.error.inj h) ▸ ih _ e' hrec
        · exact Except.noConfusion h
    · exact ih ids e h

/-- the timestamp argument of the market stock loop influences nothing but
the `updatedAt` field of each record: after blanking that field, two runs
with different timestamps agree, branch for branch. -/
theorem market_create_stocksLoop_eraseDate (wh d₁ d₂ : String) :
    ∀ (rows : List InventoryRow) (ids : List String),
    (market_create_stocksLoop wh d₁ rows ids).map
        (fun p => (p.1.map eraseUpdatedAt, p.2)) =
    (market_create_stocksLoop wh d₂ rows ids).map
        (fun p => (p.1.map eraseUpdatedAt, p.2)) := by
  intro rows
  induction rows with
  | nil => intro ids; rfl
  | cons watch rest ih =>
    intro ids
    rw [market_create_stocksLoop, market_create_stocksLoop]
    split
    · split
      · rfl
      · rename_i stock hnorm
        have hih := ih (ids.erase watch.kod)
        cases h₁ : market_create_stocksLoop wh d₁ rest (ids.erase watch.kod) with
        | error e₁ =>
          cases h₂ : market_create_stocksLoop wh d₂ rest (ids.erase watch.kod) with
          | error e₂ =>
            rw [h₁, h₂] at hih
            simp only [Except.map, Except.error.injEq] at hih
            subst hih
            rfl
          | ok pr₂ =>
            rw [h₁, h₂] at hih
            simp [Except.map] at hih
        | ok pr₁ =>
          cases h₂ : market_create_stocksLoop wh d₂ rest (ids.erase watch.kod) with
          | error e₂ =>
            rw [h₁, h₂] at hih
            simp [Except.map] at hih
          | ok pr₂ =>
            rw [h₁, h₂] at hih
            obtain ⟨recs₁, rem₁⟩ := pr₁
            obtain ⟨recs₂, rem₂⟩ := pr₂
            simp only [Except.map, Except.ok.injEq, Prod.mk.injEq] at hih
            obtain ⟨hrecs, hrem⟩ := hih
            simp [Except.map, eraseUpdatedAt, hrecs, hrem]
    · exact ih ids

/-- C7: reconciliation is deterministic in its arguments except for the
wall-clock reading: `seller.create_stocks` reads nothing but its two
arguments, and `market.create_stocks` reads the clock only to stamp the
`updatedAt` field — two runs with equal rows, identifiers and warehouse
at any two times produce record lists that are equal once the `updatedAt`
timestamps are blanked. -/
theorem market_stocks_deterministic_up_to_timestamp (wh d₁ d₂ : String)
    (rows : List InventoryRow) (ids : List String) :
    (market_create_stocks rows ids wh d₁).map (List.map eraseUpdatedAt) =
    (market_create_stocks rows ids wh d₂).map (List.map eraseUpdatedAt) := by
  have hloop := market_create_stocksLoop_eraseDate wh d₁ d₂ rows ids
  rw [market_create_stocks, market_create_stocks]
  cases h₁ : market_create_stocksLoop wh d₁ rows ids with
  | error e₁ =>
    cases h₂ : market_create_stocksLoop wh d₂ rows ids with
    | error e₂ =>
      rw [h₁, h₂] at hloop
      simp only [Except.map, Except.error.injEq] at hloop
      subst hloop
      rfl
    | ok pr₂ =>
      rw [h₁, h₂] at hloop
      simp [Except.map] at hloop
  | ok pr₁ =>
    cases h₂ : market_create_stocksLoop wh d₂ rows ids with
    | error e₂ =>
      rw [h₁, h₂] at hloop
      simp [Except.map] at hloop
    | ok pr₂ =>
      rw [h₁, h₂] at hloop
      obtain ⟨recs₁, rem₁⟩ := pr₁
      obtain ⟨recs₂, rem₂⟩ := pr₂
      simp only [Except.map, Except.ok.injEq, Prod.mk.injEq] at hloop
      obtain ⟨hrecs, hrem⟩ := hloop
      subst hrem
      simp only [Except.map, Except.ok.injEq, List.map_append, List.map_map]
      rw [hrecs]
      simp [eraseUpdatedAt]

/-- The ceiling-division chunk count of a nonempty list is one more than
that of the list with its first `m` elements removed. -/
theorem chunk_count_succ (m n' : Nat) (hm : 0 < m) :
    (n' + 1 + m - 1) / m = ((n' + 1 - m) + m - 1) / m + 1 := by
  rcases le_or_lt m (n' + 1) with hle | hlt
  · have h1 : n' + 1 + m - 1 = n' + m := by omega
    have h2 : (n' + 1 - m) + m - 1 = n' := by omega
    rw [h1, h2, Nat.add_div_right _ hm]
  · have h1 : n' + 1 + m - 1 = n' + m := by omega
    have h2 : (n' + 1 - m) + m - 1 = m - 1 := by omega
    rw [h1, h2, Nat.add_div_right _ hm,
      Nat.div_eq_of_lt (by omega), Nat.div_eq_of_lt (by omega)]

/-- The index arithmetic of `divide`'s `range`/slice loop produces exactly
the recursive chunking: chunk `j` is `take m` after `drop (m * j)`. -/
theorem rangeMap_eq_chunksRec {α : Type} (m : Nat) (hm : 0 < m) :
    ∀ (fuel : Nat) (lst : List α), lst.length ≤ fuel →
    (List.range ((lst.length + m - 1) / m)).map
        (fun j => (lst.drop (m * j)).take m) = chunksRec m fuel lst := by
  intro fuel
  induction fuel with
  | zero =>
    intro lst hlen
    have hnil : lst = [] := List.eq_nil_of_length_eq_zero (Nat.le_zero.mp hlen)
    subst hnil
    simp [chunksRec, Nat.div_eq_of_lt (by omega : m - 1 < m)]
  | succ fuel ih =>
    intro lst hlen
    cases lst with
    | nil =>
      simp [chunksRec, Nat.div_eq_of_lt (by omega : m - 1 < m)]
    | cons a l' =>
      have hk := chunk_count_succ m l'.length hm
      have hdroplen : ((a :: l').drop m).length = l'.length + 1 - m := by
        simp [List.length_drop]
      rw [show (a :: l').length = l'.length + 1 from rfl, hk,
        List.range_succ_eq_map, List.map_cons, List.map_map]
      have hfirst : ((a :: l').drop (m * 0)).take m = (a :: l').take m := by
        simp
      have hrest :
          (List.range ((l'.length + 1 - m + m - 1) / m)).map
              ((fun j => ((a :: l').drop (m * j)).take m) ∘ Nat.succ) =
          chunksRec m fuel ((a :: l').drop m) := by
        have hd : ((a :: l').drop m).length ≤ fuel := by
          rw [List.length_drop]
          exact le_trans (Nat.sub_le_sub_right hlen m) (by omega)
        have hih := ih ((a :: l').drop m) hd
        rw [hdroplen] at hih
        rw [← hih]
        apply List.map_congr_left
        intro j _
        simp only [Function.comp_apply, Nat.mul_succ, List.drop_drop]
        rw [Nat.add_comm (m * j) m]
      rw [hfirst, hrest]
      rfl

/-- Concatenating the chunks restores the input list. -/
theorem chunksRec_flatten {α : Type} (m : Nat) (hm : 0 < m) :
    ∀ (fuel : Nat) (lst : List α), lst.length ≤ fuel →
    (chunksRec m fuel lst).flatten = lst := by
  intro fuel
  induction fuel with
  | zero =>
    intro lst hlen
    have hnil : lst = [] := List.eq_nil_of_length_eq_zero (Nat.le_zero.mp hlen)
    subst hnil
    rfl
  | succ fuel ih =>
    intro lst hlen
    cases lst with
    | nil => rfl
    | cons a l' =>
      have hstep : chunksRec m (fuel + 1) (a :: l') =
          (a :: l').take m :: chunksRec m fuel ((a :: l').drop m) := rfl
      have hd : ((a :: l').drop m).length ≤ fuel := by
        rw [List.length_drop]
        exact le_trans (Nat.sub_le_sub_right hlen m) (by omega)
      rw [hstep, List.flatten_cons, ih ((a :: l').drop m) hd, List.take_append_drop]

/-- Every chunk has at most `m` elements. -/
theorem chunksRec_length_le {α : Type} (m : Nat) :
    ∀ (fuel : Nat) (lst : List α) (c : List α),
    c ∈ chunksRec m fuel lst → c.length ≤ m := by
  intro fuel
  induction fuel with
  | zero =>
    intro lst c hc
    exact absurd hc (List.not_mem_nil c)
  | succ fuel ih =>
    intro lst c hc
    cases lst with
    | nil => exact absurd hc (List.not_mem_nil c)
    | cons a l' =>
      have : chunksRec m (fuel + 1) (a :: l') =
          (a :: l').take m :: chunksRec m fuel ((a :: l').drop m) := rfl
      rw [this] at hc
      rcases List.mem_cons.mp hc with hc | hc
      · rw [hc]
        exact List.length_take_le m (a :: l')
      · exact ih _ c hc

/-- For a positive batch size, the range-and-slice loop of `divide`
computes the recursive chunking. -/
theorem divide_pos_eq {α : Type} (lst : List α) (n : Int) (hn : 0 < n) :
    divide lst n = .ok (chunksRec n.toNat lst.length lst) := by
  obtain ⟨m, rfl⟩ : ∃ m : Nat, n = (m : Int) := ⟨n.toNat, by omega⟩
  have hm : 0 < m := by omega
  have hne : (m : Int) ≠ 0 := by omega
  rw [Int.toNat_natCast, divide, if_neg hne]
  congr 1
  rw [pyRange, if_neg hne, if_pos hn]
  have hlen : ((lst.length : Int) - 0 + (m : Int) - 1).toNat = lst.length + m - 1 := by
    omega
  rw [hlen, List.map_map, ← rangeMap_eq_chunksRec m hm lst.length lst le_rfl]
  apply List.map_congr_left
  intro j _
  simp only [Function.comp_apply, pySlice]
  have h1 : ((0 : Int) + (m : Int) * (j : Int)).toNat = m * j := by
    rw [zero_add, ← Int.natCast_mul, Int.toNat_natCast]
  have h2 : ((0 : Int) + (m : Int) * (j : Int) + (m : Int)).toNat = m * j + m := by
    rw [zero_add, ← Int.natCast_mul, ← Int.natCast_add, Int.toNat_natCast]
  rw [h1, h2]
  congr 1
  omega

/-- A successful `create_stocks` run decomposes into a successful loop
run: matched records first, then a zero record per residual identifier. -/
theorem create_stocks_ok_parts (rows : List InventoryRow) (ids : List String)
    (out : List SellerStock) (h : create_stocks rows ids = .ok out) :
    ∃ recs remaining, create_stocksLoop rows ids = .ok (recs, remaining) ∧
      out = recs ++ remaining.map (fun offer_id => ⟨offer_id, 0⟩) := by
  rw [create_stocks, create_stocksFull] at h
  cases hloop : create_stocksLoop rows ids with
  | error e =>
    rw [hloop] at h
    exact Except.noConfusion h
  | ok p =>
    obtain ⟨recs, remaining⟩ := p
    rw [hloop] at h
    simp only [Except.map, Except.ok.injEq] at h
    exact ⟨recs, remaining, rfl, h.symm⟩

/-- The identifiers of the records returned by `create_stocks` are a
permutation of the input identifier list. -/
theorem create_stocks_ok_perm (rows : List InventoryRow) (ids : List String)
    (out : List SellerStock) (h : create_stocks rows ids = .ok out) :
    (out.map SellerStock.offer_id).Perm ids := by
  obtain ⟨recs, remaining, hloop, hout⟩ := create_stocks_ok_parts rows ids out h
  have hperm := create_stocksLoop_perm rows ids recs remaining hloop
  rw [hout, List.map_append, List.map_map]
  have hmapid : List.map
      (SellerStock.offer_id ∘ fun offer_id => ({ offer_id := offer_id, stock := 0 } : SellerStock))
      remaining = remaining := by
    simp [Function.comp_def]
  rw [hmapid]
  exact hperm

/-- An identifier no inventory row matches yields a zero-quantity record
in the `create_stocks` output. -/
theorem create_stocks_ok_zero (rows : List InventoryRow) (ids : List String)
    (out : List SellerStock) (i : String) (h : create_stocks rows ids = .ok out)
    (hi : i ∈ ids) (hno : ∀ w ∈ rows, w.kod ≠ i) :
    (⟨i, 0⟩ : SellerStock) ∈ out := by
  obtain ⟨recs, remaining, hloop, hout⟩ := create_stocks_ok_parts rows ids out h
  have hrem := create_stocksLoop_mem_remaining rows ids recs remaining i hloop hi hno
  rw [hout]
  exact List.mem_append_right recs (List.mem_map_of_mem _ hrem)

/-- The only error `create_stocks` can produce is `parseError`. -/
theorem create_stocks_error (rows : List InventoryRow) (ids : List String)
    (e : PyErr) (h : create_stocks rows ids = .error e) : e = .parseError := by
  rw [create_stocks, create_stocksFull] at h
  cases hloop : create_stocksLoop rows ids with
  | error e' =>
    rw [hloop] at h
    simp only [Except.map] at h
    exact (Except.error.inj h) ▸ create_stocksLoop_error rows ids e' hloop
  | ok p =>
    obtain ⟨recs, remaining⟩ := p
    rw [hloop] at h
    exact Except.noConfusion h

/-- The head of a Python `split` is the prefix before the first
separator. -/
theorem pySplit_headD (sep : Char) : ∀ cs : List Char,
    (pySplit sep cs).headD [] = cs.takeWhile (fun c => c != sep) := by
  intro cs
  induction cs with
  | nil => rfl
  | cons c cs ih =>
    rw [pySplit]
    by_cases hc : c = sep
    · simp [hc, List.takeWhile_cons]
    · simp only [if_neg hc, List.headD_cons, List.takeWhile_cons]
      rw [if_pos (by simp [hc]), ih]

/-- C1: for every inventory row list (duplicate codes allowed) and every
duplicate-free identifier list, the identifiers of the records returned by
`create_stocks` are exactly the input identifiers — a permutation of them,
without duplicates; every identifier matched by no row yields a record
with quantity 0; and every record's identifier is one of the input
identifiers, so a row whose code is not among them contributes no
record. -/
theorem stock_records_cover_known_ids_exactly
    (rows : List InventoryRow) (ids : List String) (out : List SellerStock)
    (hnodup : ids.Nodup) (h : create_stocks rows ids = .ok out) :
    (out.map SellerStock.offer_id).Perm ids ∧
    (out.map SellerStock.offer_id).Nodup ∧
    (∀ i ∈ ids, (∀ w ∈ rows, w.kod ≠ i) → (⟨i, 0⟩ : SellerStock) ∈ out) ∧
    (∀ r ∈ out, r.offer_id ∈ ids) := by
  have hperm := create_stocks_ok_perm rows ids out h
  refine ⟨hperm, hperm.nodup_iff.mpr hnodup, ?_, ?_⟩
  · intro i hi hno
    exact create_stocks_ok_zero rows ids out i h hi hno
  · intro r hr
    exact hperm.mem_iff.mp (List.mem_map_of_mem SellerStock.offer_id hr)

/-- C1 witness: a run with one matched row and one unmatched identifier. -/
theorem stock_records_cover_known_ids_exactly_witness :
    (([⟨"100", 5⟩, ⟨"200", 0⟩] : List SellerStock).map SellerStock.offer_id).Perm
        ["100", "200"] ∧
    (⟨"200", 0⟩ : SellerStock) ∈ ([⟨"100", 5⟩, ⟨"200", 0⟩] : List SellerStock) := by
  have h := stock_records_cover_known_ids_exactly
    [⟨"100", "5", "p"⟩] ["100", "200"] [⟨"100", 5⟩, ⟨"200", 0⟩]
    (by decide) (by decide)
  exact ⟨h.1, h.2.2.1 "200" (by decide) (by decide)⟩

/-- C2: every matched record's quantity is the spec's normalization policy
applied to its row's quantity descriptor, and concretely a matched
descriptor `">10"` yields 100, `"1"` yields 0, and `"57"` yields 57. -/
theorem matched_quantity_follows_spec_policy :
    (∀ (rows : List InventoryRow) (ids : List String) (recs : List SellerStock)
      (remaining : List String),
      create_stocksLoop rows ids = .ok (recs, remaining) →
      ∀ r ∈ recs, ∃ w, w ∈ rows ∧ w.kod = r.offer_id ∧
        specNormalizedQty w.kolichestvo = some r.stock) ∧
    create_stocks [⟨"a", ">10", "p"⟩] ["a"] = .ok [⟨"a", 100⟩] ∧
    create_stocks [⟨"a", "1", "p"⟩] ["a"] = .ok [⟨"a", 0⟩] ∧
    create_stocks [⟨"a", "57", "p"⟩] ["a"] = .ok [⟨"a", 57⟩] := by
  refine ⟨?_, by decide, by decide, by decide⟩
  intro rows ids recs remaining h r hr
  obtain ⟨w, hw, hk, hn⟩ := create_stocksLoop_rec_source rows ids recs remaining h r hr
  exact ⟨w, hw, hk, (normalizeCount_eq_spec w.kolichestvo r.stock).mp hn⟩

/-- C2 witness: the policy instantiated on a concrete matched row. -/
theorem matched_quantity_follows_spec_policy_witness :
    ∃ w, w ∈ [(⟨"a", "5", "p"⟩ : InventoryRow)] ∧ w.kod = "a" ∧
      specNormalizedQty w.kolichestvo = some 5 := by
  have h := matched_quantity_follows_spec_policy.1
    [⟨"a", "5", "p"⟩] ["a"] [⟨"a", 5⟩] [] (by decide) ⟨"a", 5⟩ (by decide)
  exact h

/-- C3: `price_conversion` keeps the part of the descriptor before the
first decimal point and removes every non-digit character from it, exactly
as the spec's price normalization policy says, and the worked examples of
the spec hold, also after the `int()` conversion applied at the market
call site. -/
theorem price_conversion_matches_spec_policy :
    (∀ s : String, price_conversion s = specPriceDigits s) ∧
    price_conversion "5'990.00 руб." = "5990" ∧
    price_conversion "5 000 руб." = "5000" ∧
    pyInt (price_conversion "5'990.00 руб.") = some 5990 ∧
    pyInt (price_conversion "5 000 руб.") = some 5000 := by
  refine ⟨?_, by decide, by decide, by decide, by decide⟩
  intro s
  rw [price_conversion, specPriceDigits, pySplit_headD]

/-- C4: for every positive batch size, `divide` produces slices whose
concatenation is exactly the input (contiguous, non-overlapping, in
order), each of length at most the batch size, and the spec's worked
examples hold. -/
theorem divide_partitions_input :
    (∀ (α : Type) (lst : List α) (n : Int), 0 < n →
      ∃ chunks, divide lst n = .ok chunks ∧ chunks.flatten = lst ∧
        ∀ c ∈ chunks, c.length ≤ n.toNat) ∧
    divide [1, 2, 3, 4] (2 : Int) = .ok [[1, 2], [3, 4]] ∧
    divide [1, 2, 3] (2 : Int) = .ok [[1, 2], [3]] := by
  refine ⟨?_, by decide, by decide⟩
  intro α lst n hn
  refine ⟨chunksRec n.toNat lst.length lst, divide_pos_eq lst n hn, ?_, ?_⟩
  · exact chunksRec_flatten n.toNat (by omega) lst.length lst le_rfl
  · intro c hc
    exact chunksRec_length_le n.toNat lst.length lst c hc

/-- C4 witness: a batch size that does not divide the length. -/
theorem divide_partitions_input_witness :
    ∃ chunks, divide [1, 2, 3, 4, 5] (2 : Int) = .ok chunks ∧
      chunks.flatten = [1, 2, 3, 4, 5] ∧ ∀ c ∈ chunks, c.length ≤ (2 : Int).toNat :=
  divide_partitions_input.1 Nat [1, 2, 3, 4, 5] 2 (by decide)

/-- C5 counterexample: with a negative batch size `divide` does not fail;
it returns an empty batch sequence (`range(0, len, n)` is empty for a
negative step), silently dropping the whole input. -/
theorem divide_negative_size_counterexample :
    divide [1, 2, 3] (-1 : Int) = .ok [] := by decide

/-- C5 amended: `divide` fails with the InvalidArgument condition exactly
when the batch size is zero; for a negative batch size it instead returns
the empty sequence of batches without any error. -/
theorem divide_fails_only_on_zero_size :
    (∀ (α : Type) (lst : List α), divide lst 0 = .error .invalidArgument) ∧
    (∀ (α : Type) (lst : List α) (n : Int), n < 0 → divide lst n = .ok []) := by
  constructor
  · intro α lst
    rfl
  · intro α lst n hn
    have hne : n ≠ 0 := by omega
    rw [divide, if_neg hne, pyRange, if_neg hne, if_neg (by omega : ¬ 0 < n)]
    have hlen : ((0 : Int) - (lst.length : Int) + -n - 1).toNat / (-n).toNat = 0 := by
      apply Nat.div_eq_of_lt
      omega
    rw [hlen]
    rfl

/-- C5 amended witness: a negative batch size on a nonempty list. -/
theorem divide_fails_only_on_zero_size_witness :
    divide ([1] : List Nat) (-3 : Int) = .ok [] :=
  divide_fails_only_on_zero_size.2 Nat [1] (-3) (by decide)

/-- C6: evaluation at the aliasing scenario of `seller.main` (create
stocks, then create prices against the same `offer_ids` list): the
`create_stocks` call empties the caller's list of the matched identifier,
so the subsequent `create_prices` over the mutated list returns no
records, whereas `create_prices` over the original list returns the
expected record. -/
theorem create_stocks_consumes_offer_ids :
    create_stocksFull [⟨"100", "5", "5 000 руб."⟩] ["100"] =
      .ok ([⟨"100", 5⟩], []) ∧
    create_prices [⟨"100", "5", "5 000 руб."⟩] [] = [] ∧
    create_prices [⟨"100", "5", "5 000 руб."⟩] ["100"] =
      [⟨"UNKNOWN", "RUB", "100", "0", "5000"⟩] := by
  refine ⟨by decide, by decide, by decide⟩

/-- C7 counterexample: two `market.create_stocks` runs with equal rows,
identifiers and warehouse but different clock readings return different
record lists — the claim that the output depends on nothing but the two
arguments fails on the `updatedAt` field. -/
theorem market_stocks_time_counterexample :
    market_create_stocks [] ["100"] "wh" "2023-01-01T00:00:00Z" =
      .ok [⟨"100", "wh", [⟨0, "FIT", "2023-01-01T00:00:00Z"⟩]⟩] ∧
    market_create_stocks [] ["100"] "wh" "2023-01-02T00:00:00Z" =
      .ok [⟨"100", "wh", [⟨0, "FIT", "2023-01-02T00:00:00Z"⟩]⟩] ∧
    ([⟨"100", "wh", [⟨0, "FIT", "2023-01-01T00:00:00Z"⟩]⟩] : List MarketStock) ≠
      [⟨"100", "wh", [⟨0, "FIT", "2023-01-02T00:00:00Z"⟩]⟩] := by
  refine ⟨by decide, by decide, by decide⟩

/-- C8: `create_prices` yields exactly one record per inventory row whose
code is among the identifiers (so unmatched identifiers yield none), and
every price record's identifier appears among the identifiers of the
stock records that `create_stocks` builds from the same (unmutated)
inputs. -/
theorem price_records_subset_of_stock_records
    (rows : List InventoryRow) (ids : List String) (out : List SellerStock)
    (h : create_stocks rows ids = .ok out) :
    create_prices rows ids =
      (rows.filter (fun w => decide (w.kod ∈ ids))).map mkSellerPrice ∧
    ∀ p ∈ create_prices rows ids, p.offer_id ∈ out.map SellerStock.offer_id := by
  refine ⟨create_prices_eq_filter_map rows ids, ?_⟩
  intro p hp
  exact (create_stocks_ok_perm rows ids out h).mem_iff.mpr
    (create_prices_mem_ids rows ids p hp)

/-- C8 witness: one matched row. -/
theorem price_records_subset_of_stock_records_witness :
    create_prices [⟨"100", "5", "9 руб."⟩] ["100"] =
      (([⟨"100", "5", "9 руб."⟩] : List InventoryRow).filter
        (fun w => decide (w.kod ∈ ["100"]))).map mkSellerPrice ∧
    "100" ∈ (([⟨"100", 5⟩] : List SellerStock).map SellerStock.offer_id) := by
  have h := price_records_subset_of_stock_records
    [⟨"100", "5", "9 руб."⟩] ["100"] [⟨"100", 5⟩] (by decide)
  exact ⟨h.1, h.2 ⟨"UNKNOWN", "RUB", "100", "0", "9"⟩ (by decide)⟩

/-- C9: the reconciliation engine fails only with the ParseError
condition and the batch partitioner only with the InvalidArgument
condition; in particular a matched row whose quantity descriptor is
neither `">10"` nor `"1"` nor an `int()`-parseable string makes
`create_stocks` fail with ParseError. -/
theorem reconciliation_errors_only_parse_or_invalid :
    (∀ (rows : List InventoryRow) (ids : List String) (e : PyErr),
      create_stocks rows ids = .error e → e = .parseError) ∧
    (∀ (rows : List InventoryRow) (ids : List String) (e : PyErr),
      market_create_prices rows ids = .error e → e = .parseError) ∧
    (∀ (α : Type) (lst : List α) (n : Int) (e : PyErr),
      divide lst n = .error e → e = .invalidArgument) ∧
    (∀ (w : InventoryRow) (rest : List InventoryRow) (ids : List String),
      w.kod ∈ ids → w.kolichestvo ≠ ">10" → w.kolichestvo ≠ "1" →
      pyInt w.kolichestvo = none →
      create_stocks (w :: rest) ids = .error .parseError) := by
  refine ⟨create_stocks_error, market_create_prices_error, ?_, ?_⟩
  · intro α lst n e h
    rw [divide] at h
    split at h
    · exact (Except.error.inj h).symm
    · exact Except.noConfusion h
  · intro w rest ids hmem hq1 hq2 hp
    have hnorm : normalizeCount w.kolichestvo = .error .parseError := by
      rw [normalizeCount, if_neg hq1, if_neg hq2, hp]
    rw [create_stocks, create_stocksFull, create_stocksLoop, if_pos hmem, hnorm]
    rfl

/-- C9 witness: a matched row with a non-numeric descriptor. -/
theorem reconciliation_errors_only_parse_or_invalid_witness :
    create_stocks [⟨"100", "abc", "p"⟩] ["100"] = .error .parseError :=
  reconciliation_errors_only_parse_or_invalid.2.2.2 ⟨"100", "abc", "p"⟩ [] ["100"]
    (by decide) (by decide) (by decide) (by decide)

/-- C10 counterexample: a matched row whose quantity descriptor is a
negative integer string produces a stock record with a negative quantity,
refuting the unconditional quantity-is-nonnegative claim. -/
theorem negative_quantity_counterexample :
    create_stocks [⟨"100", "-5", "p"⟩] ["100"] = .ok [⟨"100", -5⟩] ∧
    (⟨"100", -5⟩ : SellerStock).stock < 0 := by
  refine ⟨by decide, by decide⟩

/-- C10 amended: every stock record has quantity ≥ 0 provided every
row whose quantity descriptor parses as an integer parses to a
nonnegative one; records for unmatched identifiers always carry 0, and
the `">10"` and `"1"` cases always carry 100 and 0. -/
theorem stock_quantities_nonneg_of_nonneg_inputs
    (rows : List InventoryRow) (ids : List String) (out : List SellerStock)
    (hnn : ∀ w ∈ rows, ∀ k : Int, pyInt w.kolichestvo = some k → 0 ≤ k)
    (h : create_stocks rows ids = .ok out) :
    ∀ r ∈ out, 0 ≤ r.stock := by
  obtain ⟨recs, remaining, hloop, hout⟩ := create_stocks_ok_parts rows ids out h
  intro r hr
  rw [hout] at hr
  rcases List.mem_append.mp hr with hr | hr
  · obtain ⟨w, hw, _, hn⟩ :=
      create_stocksLoop_rec_source rows ids recs remaining hloop r hr
    rcases normalizeCount_ok_cases _ _ hn with h100 | h0 | hparse
    · rw [h100]
      decide
    · rw [h0]
    · exact hnn w hw r.stock hparse
  · obtain ⟨i, _, hrec⟩ := List.mem_map.mp hr
    rw [← hrec]

/-- C10 amended witness: a run whose only descriptor parses to 7 ≥ 0. -/
theorem stock_quantities_nonneg_of_nonneg_inputs_witness :
    (0 : Int) ≤ (⟨"100", 7⟩ : SellerStock).stock := by
  have h := stock_quantities_nonneg_of_nonneg_inputs
    [⟨"100", "7", "p"⟩] ["100"] [⟨"100", 7⟩]
    (by
      intro w hw k hk
      have hw' : w = ⟨"100", "7", "p"⟩ := by simpa using hw
      subst hw'
      have hk' : pyInt "7" = some k := hk
      have h7 : pyInt "7" = some 7 := by decide
      have := Option.some.inj (h7.symm.trans hk')
      omega)
    (by decide)
  exact h ⟨"100", 7⟩ (by decide)

example : pyInt "5" = some 5 := by decide
example : pyInt "-5" = some (-5) := by decide
example : pyInt "abc" = none := by decide
example : pyInt "" = none := by decide
example : pyInt ">10" = none := by decide
example : price_conversion "5 000 руб." = "5000" := by decide
example : create_stocks [⟨"100", "5", "p"⟩] ["100", "200"] =
    .ok [⟨"100", 5⟩, ⟨"200", 0⟩] := by decide
